import Mathlib

set_option maxHeartbeats 1000000
set_option maxRecDepth 100000
set_option exponentiation.threshold 2000
set_option linter.unusedSectionVars false

attribute [local semireducible] Rat.mul Rat.add Rat.sub Rat.inv Rat.ofScientific

/-! Verification of the R-tree spatial index implemented in
`src/gui/include/gui/spatial_rtree.h` (classes `RTreeBBox`, `RTreeNode`,
`RTreeLeafNode`, `RTreeInternalNode`, `RTree`).

The C++ code computes with IEEE doubles.  Following the usual exact reading,
coordinates live in an arbitrary linear ordered field `K` (instantiated at
`ℚ` for executable traces and at `ℝ` for analytic facts).  The three
non-algebraic ingredients of the code — `sin` inside `Area()`, the constant
`M_PI`, and `std::sqrt` inside `DistanceToBox` — are abstracted into a
parameter record `RParams`.  Every theorem below either holds for all
parameter values, or instantiates them at values that provably agree with
the real functions at every argument reached by the finite trace in its
statement; each such instance documents why.  Nullable `unique_ptr` values
are modelled by the dedicated constructor `RNode.null`. -/

/-- Bounding box, mirroring class `RTreeBBox`.  Field order matches the
C++ constructor `RTreeBBox(minLat, minLon, maxLat, maxLon)`. -/
structure RTreeBBox (K : Type) where
  minLat : K
  minLon : K
  maxLat : K
  maxLon : K
deriving DecidableEq

/-- Stand-in for `DBL_MAX`, the largest finite double, whose exact value is
`2^1024 - 2^971`.  `std::numeric_limits<double>::lowest()` is its negation. -/
def DMAX (K : Type) [LinearOrderedField K] : K := ((2 ^ 1024 - 2 ^ 971 : ℕ) : K)

variable {K : Type} [LinearOrderedField K]

/-- The default-constructed (invalid) box: `minLat = minLon = DBL_MAX`,
`maxLat = maxLon = lowest()`. -/
def emptyBox : RTreeBBox K := ⟨DMAX K, DMAX K, -DMAX K, -DMAX K⟩

/-- Mirrors `RTreeBBox::IsValid`. -/
def RTreeBBox.isValid (b : RTreeBBox K) : Prop :=
  b.minLat ≤ b.maxLat ∧ b.minLon ≤ b.maxLon ∧ b.minLat ≠ DMAX K

instance (b : RTreeBBox K) : Decidable b.isValid := by
  unfold RTreeBBox.isValid; infer_instance

/-- Mirrors `RTreeBBox::Expand(double lat, double lon)`. -/
def RTreeBBox.expandPt (b : RTreeBBox K) (lat lon : K) : RTreeBBox K :=
  ⟨min b.minLat lat, min b.minLon lon, max b.maxLat lat, max b.maxLon lon⟩

/-- Mirrors `RTreeBBox::Expand(const RTreeBBox&)`: a no-op when `other` is invalid. -/
def RTreeBBox.expandBox (b o : RTreeBBox K) : RTreeBBox K :=
  if o.isValid then
    ⟨min b.minLat o.minLat, min b.minLon o.minLon,
     max b.maxLat o.maxLat, max b.maxLon o.maxLon⟩
  else b

/-- Mirrors `RTreeBBox::Intersects`: disjointness tests on each axis, negated;
touching edges or corners count as intersecting. -/
def RTreeBBox.intersects (b o : RTreeBBox K) : Prop :=
  ¬(b.maxLon < o.minLon ∨ o.maxLon < b.minLon) ∧
  ¬(b.minLat > o.maxLat ∨ o.minLat > b.maxLat)

instance (b o : RTreeBBox K) : Decidable (b.intersects o) := by
  unfold RTreeBBox.intersects; infer_instance

/-- Mirrors `RTreeBBox::Contains(double lat, double lon)`, inclusive boundaries. -/
def RTreeBBox.containsPt (b : RTreeBBox K) (lat lon : K) : Prop :=
  lat ≥ b.minLat ∧ lat ≤ b.maxLat ∧ lon ≥ b.minLon ∧ lon ≤ b.maxLon

instance (b : RTreeBBox K) (lat lon : K) : Decidable (b.containsPt lat lon) := by
  unfold RTreeBBox.containsPt; infer_instance

/-- Abstraction of the non-algebraic functions used by the C++ code. -/
structure RParams (K : Type) where
  /-- Here `sinDeg x` stands for `std::sin(x * M_PI / 180.0)`, the sine of
  `x` degrees, as used inside `RTreeBBox::Area`. -/
  sinDeg : K → K
  /-- Here `piv` stands for `M_PI` in the `dLon` radian conversion of `Area`. -/
  piv : K
  /-- Here `sqrtFn` stands for `std::sqrt` in `RTree::DistanceToBox`. -/
  sqrtFn : K → K

/-- Mirrors `RTreeBBox::Area`: `0` for an invalid box, else
`R² · ((maxLon − minLon)·π/180) · (sin maxLat° − sin minLat°)` with
`R = 6371` km. -/
def RTreeBBox.area (P : RParams K) (b : RTreeBBox K) : K :=
  if b.isValid then
    6371 * 6371 * ((b.maxLon - b.minLon) * P.piv / 180) *
      (P.sinDeg b.maxLat - P.sinDeg b.minLat)
  else 0

/-- Mirrors `RTreeBBox::EnlargementArea`: `other.Area()` if `self` is invalid, `0`
if `other` is invalid, else area of the coordinatewise union minus own area. -/
def RTreeBBox.enlargementArea (P : RParams K) (b o : RTreeBBox K) : K :=
  if ¬b.isValid then o.area P
  else if ¬o.isValid then 0
  else
    (RTreeBBox.mk (min b.minLat o.minLat) (min b.minLon o.minLon)
      (max b.maxLat o.maxLat) (max b.maxLon o.maxLon)).area P - b.area P

/-- A leaf entry, `RTreeLeafNode::Entry`: `{index, box}`. -/
abbrev REntry (K : Type) := ℕ × RTreeBBox K

/-- R-tree node.  `null` models a null `std::unique_ptr<RTreeNode>` (the
C++ vectors of children hold nullable owning pointers); `leaf` and `node`
carry the cached `nodeRTreeBBox` exactly as the two C++ subclasses do. -/
inductive RNode (K : Type) where
  | null
  | leaf (cached : RTreeBBox K) (entries : List (REntry K))
  | node (cached : RTreeBBox K) (children : List (RNode K))

/-- Mirrors `RTreeNode::GetRTreeBBox`; calling it through a null pointer is
undefined behaviour in C++, modelled as the invalid box. -/
def getBBox : RNode K → RTreeBBox K
  | .null => emptyBox
  | .leaf c _ => c
  | .node c _ => c

/-- Is this node the null pointer? -/
def RNode.isNull : RNode K → Bool
  | .null => true
  | _ => false

/-- Is this node a leaf (`RTreeNode::IsLeaf`)? -/
def RNode.isLeafB : RNode K → Bool
  | .leaf _ _ => true
  | _ => false

mutual

/-- Mirrors `RTreeNode::Search`: a leaf appends the indices of its intersecting
entries in order; an internal node visits every child unconditionally.
(The C++ threads an accumulating result vector; this is its value.) -/
def searchN (q : RTreeBBox K) : RNode K → List ℕ
  | .null => []
  | .leaf _ es => (es.filter fun e => decide (e.2.intersects q)).map Prod.fst
  | .node _ cs => searchL q cs

/-- Search of a child list, in order, concatenating results. -/
def searchL (q : RTreeBBox K) : List (RNode K) → List ℕ
  | [] => []
  | c :: cs => searchN q c ++ searchL q cs

end

mutual

/-- All `{index, box}` entries stored below a node, in left-to-right order. -/
def entriesN : RNode K → List (REntry K)
  | .null => []
  | .leaf _ es => es
  | .node _ cs => entriesL cs

/-- Entries below a list of children. -/
def entriesL : List (RNode K) → List (REntry K)
  | [] => []
  | c :: cs => entriesN c ++ entriesL cs

end

mutual

/-- Number of leaf/internal node objects below a node (used as fuel). -/
def sizeN : RNode K → ℕ
  | .null => 1
  | .leaf _ _ => 1
  | .node _ cs => 1 + sizeL cs

/-- Total size of a list of children. -/
def sizeL : List (RNode K) → ℕ
  | [] => 0
  | c :: cs => sizeN c + sizeL cs

end

/-- The ordered list of index pairs `(i, j)` with `i < j < n`, exactly the
iteration order of the double loops in `ChooseSeeds`/`ChooseSeedsForNodes`. -/
def pairList (n : ℕ) : List (ℕ × ℕ) :=
  (List.range n).flatMap fun i => ((List.range n).filter fun j => i < j).map fun j => (i, j)

/-- The "waste" of pairing two boxes, computed identically inside
`ChooseSeeds` and `ChooseSeedsForNodes`:
`Area(union) − Area(a) − Area(b)`. -/
def boxWaste (P : RParams K) (b1 b2 : RTreeBBox K) : K :=
  (b1.expandBox b2).area P - b1.area P - b2.area P

/-- Mirrors `RTree::ChooseSeeds` (the template instantiated at leaf entries): scan
all pairs, keep the pair of maximal waste
`Area(union) − Area(a) − Area(b)`, starting from `maxWaste = −1`.  In
`SplitLeafNode` the C++ passes two *uninitialized* locals as seeds (they are
only written when some pair has waste `> −1`, which is undefined behaviour
otherwise); the model reads the uninitialized values as `0`. -/
def chooseSeeds (P : RParams K) (es : List (REntry K)) : ℕ × ℕ :=
  let st := (pairList es.length).foldl (fun st ij =>
    if boxWaste P (es.getD ij.1 (0, emptyBox)).2 (es.getD ij.2 (0, emptyBox)).2 > st.1 then
      (boxWaste P (es.getD ij.1 (0, emptyBox)).2 (es.getD ij.2 (0, emptyBox)).2, ij.1, ij.2)
    else st)
    ((-1 : K), (0 : ℕ), (0 : ℕ))
  (st.2.1, st.2.2)

/-- Mirrors `RTree::ChooseSeedsForNodes`: same scan over the children's cached
boxes; the seed variables are initialized to `0` and `1` at the call site in
`SplitInternalNode`. -/
def chooseSeedsForNodes (P : RParams K) (cs : List (RNode K)) : ℕ × ℕ :=
  let st := (pairList cs.length).foldl (fun st ij =>
    if boxWaste P (getBBox (cs.getD ij.1 .null)) (getBBox (cs.getD ij.2 .null)) > st.1 then
      (boxWaste P (getBBox (cs.getD ij.1 .null)) (getBBox (cs.getD ij.2 .null)), ij.1, ij.2)
    else st)
    ((-1 : K), (0 : ℕ), (1 : ℕ))
  (st.2.1, st.2.2)

/-- Cached box of a leaf rebuilt by `ClearEntries` + repeated `AddEntry`. -/
def leafCache (g : List (REntry K)) : RTreeBBox K :=
  g.foldl (fun b e => b.expandBox e.2) emptyBox

/-- Cached box of an internal node rebuilt by `ClearChildren` + repeated
`AddChild`. -/
def nodeCache (g : List (RNode K)) : RTreeBBox K :=
  g.foldl (fun b c => b.expandBox (getBBox c)) emptyBox

/-- The items of a list whose positions differ from both `s1` and `s2`
(the entries not marked `assigned` after seeding), in original order. -/
def filterIdx (s1 s2 : ℕ) : ℕ → List α → List α
  | _, [] => []
  | i, a :: as =>
    if i = s1 ∨ i = s2 then filterIdx s1 s2 (i + 1) as
    else a :: filterIdx s1 s2 (i + 1) as

/-- The assignment loop of `SplitLeafNode`: each remaining entry, in
original order, goes to a forced group when one group could otherwise no
longer reach `minEntries`, else to the group of smaller enlargement, ties
broken by smaller current group size with group 1 winning further ties.
`rest.length + 1` is the C++ `remaining` counter at the moment of the test. -/
def assignGo (P : RParams K) (minE : ℕ) :
    List (REntry K) → List (REntry K) → List (REntry K) → RTreeBBox K →
    RTreeBBox K → List (REntry K) × List (REntry K)
  | [], g1, g2, _, _ => (g1, g2)
  | e :: rest, g1, g2, b1, b2 =>
    let remaining := rest.length + 1
    if g1.length + remaining < minE then
      assignGo P minE rest (g1 ++ [e]) g2 (b1.expandBox e.2) b2
    else if g2.length + remaining < minE then
      assignGo P minE rest g1 (g2 ++ [e]) b1 (b2.expandBox e.2)
    else
      let en1 := b1.enlargementArea P e.2
      let en2 := b2.enlargementArea P e.2
      if en1 < en2 ∨ (en1 = en2 ∧ g1.length < g2.length) then
        assignGo P minE rest (g1 ++ [e]) g2 (b1.expandBox e.2) b2
      else
        assignGo P minE rest g1 (g2 ++ [e]) b1 (b2.expandBox e.2)

/-- The two groups produced by `RTree::SplitLeafNode` on the given entry
list: seeds ordered (`if (seed1 > seed2) std::swap`), each seeding a group,
then the assignment loop over the non-seed entries. -/
def splitLeafGroups (P : RParams K) (minE : ℕ) (es : List (REntry K)) :
    List (REntry K) × List (REntry K) :=
  let sd := chooseSeeds P es
  let s1 := if sd.1 > sd.2 then sd.2 else sd.1
  let s2 := if sd.1 > sd.2 then sd.1 else sd.2
  let e1 := es.getD s1 (0, emptyBox)
  let e2 := es.getD s2 (0, emptyBox)
  assignGo P minE (filterIdx s1 s2 0 es) [e1] [e2] e1.2 e2.2

/-- Mirrors `RTree::SplitLeafNode`: the original node is cleared and rebuilt from
group 1 (recomputing its cached box entry by entry), the returned sibling
holds group 2. -/
def splitLeafNode (P : RParams K) (minE : ℕ) (es : List (REntry K)) :
    RNode K × RNode K :=
  let g := splitLeafGroups P minE es
  (.leaf (leafCache g.1) g.1, .leaf (leafCache g.2) g.2)

/-- Tail of the scan of `RTree::ChooseBestChild`: keep the child of least
enlargement, ties broken by smaller area, earlier index winning any
remaining tie. -/
def chooseBestAux (P : RParams K) (b : RTreeBBox K) :
    List (RNode K) → ℕ → ℕ → K → K → ℕ
  | [], _, best, _, _ => best
  | c :: rest, i, best, mE, mA =>
    let e := (getBBox c).enlargementArea P b
    let a := (getBBox c).area P
    if e < mE then chooseBestAux P b rest (i + 1) i e a
    else if e = mE ∧ a < mA then chooseBestAux P b rest (i + 1) i mE a
    else chooseBestAux P b rest (i + 1) best mE mA

/-- Mirrors `RTree::ChooseBestChild` (returns `0` on an empty child list). -/
def chooseBestChild (P : RParams K) (cs : List (RNode K)) (b : RTreeBBox K) : ℕ :=
  match cs with
  | [] => 0
  | c :: rest =>
    chooseBestAux P b rest 1 0 ((getBBox c).enlargementArea P b)
      ((getBBox c).area P)

/-- The child-picking scan inside the `SplitInternalNode` loop: the child
minimizing `|enlargement₁ − enlargement₂|`, earliest index winning ties
(`bestDiff` starts at `DBL_MAX`). -/
def pickMinDiffAux (P : RParams K) (b1 b2 : RTreeBBox K) :
    List (RNode K) → ℕ → ℕ → K → ℕ
  | [], _, best, _ => best
  | c :: rest, i, best, bd =>
    let d := |b1.enlargementArea P (getBBox c) - b2.enlargementArea P (getBBox c)|
    if d < bd then pickMinDiffAux P b1 b2 rest (i + 1) i d
    else pickMinDiffAux P b1 b2 rest (i + 1) best bd

/-- Index of the next child moved by the `SplitInternalNode` loop. -/
def pickMinDiff (P : RParams K) (b1 b2 : RTreeBBox K) (cs : List (RNode K)) : ℕ :=
  pickMinDiffAux P b1 b2 cs 0 0 (DMAX K)

/-- The distribution loop of `SplitInternalNode`: while children remain,
move the `pickMinDiff` child into a group — forced when a group could
otherwise miss `minEntries` (`remaining` is the child count *before* the
removal), else by least enlargement with the same tie-breaks as the leaf
split.  The fuel equals the initial child count, one child moving per
round, so the `0` case is never reached. -/
def distNodes (P : RParams K) (minE : ℕ) :
    ℕ → List (RNode K) → List (RNode K) → List (RNode K) → RTreeBBox K →
    RTreeBBox K → List (RNode K) × List (RNode K)
  | _, [], g1, g2, _, _ => (g1, g2)
  | 0, _, g1, g2, _, _ => (g1, g2)
  | fuel + 1, cs, g1, g2, b1, b2 =>
    let bc := pickMinDiff P b1 b2 cs
    let c := cs.getD bc .null
    let rest := cs.eraseIdx bc
    let remaining := cs.length
    if g1.length + remaining < minE then
      distNodes P minE fuel rest (g1 ++ [c]) g2 (b1.expandBox (getBBox c)) b2
    else if g2.length + remaining < minE then
      distNodes P minE fuel rest g1 (g2 ++ [c]) b1 (b2.expandBox (getBBox c))
    else
      let en1 := b1.enlargementArea P (getBBox c)
      let en2 := b2.enlargementArea P (getBBox c)
      if en1 < en2 ∨ (en1 = en2 ∧ g1.length < g2.length) then
        distNodes P minE fuel rest (g1 ++ [c]) g2 (b1.expandBox (getBBox c)) b2
      else
        distNodes P minE fuel rest g1 (g2 ++ [c]) b1 (b2.expandBox (getBBox c))

/-- The two groups produced by `RTree::SplitInternalNode`: ordered seeds
are detached by `RemoveChild(seed1)` then `RemoveChild(seed2 − 1)` (index
shifted by the first removal), then the distribution loop empties the
remaining child list. -/
def splitInternalGroups (P : RParams K) (minE : ℕ) (cs : List (RNode K)) :
    List (RNode K) × List (RNode K) :=
  let sd := chooseSeedsForNodes P cs
  let s1 := if sd.1 > sd.2 then sd.2 else sd.1
  let s2 := if sd.1 > sd.2 then sd.1 else sd.2
  let c1 := cs.getD s1 .null
  let cs1 := cs.eraseIdx s1
  let c2 := cs1.getD (s2 - 1) .null
  let cs2 := cs1.eraseIdx (s2 - 1)
  distNodes P minE cs2.length cs2 [c1] [c2] (getBBox c1) (getBBox c2)

/-- Mirrors `RTree::SplitInternalNode`: original node rebuilt from group 1, new
sibling from group 2, cached boxes recomputed by the `AddChild` calls. -/
def splitInternalNode (P : RParams K) (minE : ℕ) (cs : List (RNode K)) :
    RNode K × RNode K :=
  let g := splitInternalGroups P minE cs
  (.node (nodeCache g.1) g.1, .node (nodeCache g.2) g.2)

mutual

/-- Mirrors `RTree::InsertInternal`.  Returns the updated node and the new sibling
(`RNode.null` when no split happened, like the C++ `nullptr`).  At a leaf
the entry is appended and the node split when it now holds `≥ maxEntries`
entries (`IsFull` tests `size() >= maxEntries`).  At an internal node the
insertion recurses into the best child; only when the child split does the
code re-add a sibling and recompute this node's cached box — otherwise the
cached box is left untouched. -/
def insertN (P : RParams K) (maxE minE : ℕ) (k : ℕ) (b : RTreeBBox K) :
    RNode K → RNode K × RNode K
  | .null => (.null, .null)
  | .leaf cached es =>
    let es' := es ++ [(k, b)]
    if maxE ≤ es'.length then splitLeafNode P minE es'
    else (.leaf (cached.expandBox b) es', .null)
  | .node cached cs =>
    let r := insertL P maxE minE k b cs (chooseBestChild P cs b)
    if r.2.isNull then (.node cached r.1, .null)
    else
      if maxE ≤ (r.1 ++ [r.2]).length then splitInternalNode P minE (r.1 ++ [r.2])
      else (.node (nodeCache (r.1 ++ [r.2])) (r.1 ++ [r.2]), .null)

/-- Insertion into the `i`-th element of a child list (the C++ mutates
`children[bestChild]` in place through its pointer). -/
def insertL (P : RParams K) (maxE minE : ℕ) (k : ℕ) (b : RTreeBBox K) :
    List (RNode K) → ℕ → List (RNode K) × RNode K
  | [], _ => ([], .null)
  | c :: rest, 0 =>
    let r := insertN P maxE minE k b c
    (r.1 :: rest, r.2)
  | c :: rest, i + 1 =>
    let r := insertL P maxE minE k b rest i
    (c :: r.1, r.2)

end

/-- The index object, class `RTree`: owned root plus capacity parameters. -/
structure RTree (K : Type) where
  root : RNode K
  maxEntries : ℕ
  minEntries : ℕ

/-- The `RTree` constructor: `minEntries` clamped into `[2, maxEntries/2]`
(`size_t` arithmetic), root an empty leaf. -/
def mkRTree (maxE minE : ℕ) : RTree K :=
  ⟨.leaf emptyBox [], maxE,
    if (if minE < 2 then 2 else minE) < maxE / 2 then
      (if minE < 2 then 2 else minE)
    else maxE / 2⟩

/-- Mirrors `RTree::Insert`: on a root split, a fresh internal node adopts the old
root and the sibling, in this order. -/
def RTree.insertT (t : RTree K) (P : RParams K) (k : ℕ) (b : RTreeBBox K) :
    RTree K :=
  let r := insertN P t.maxEntries t.minEntries k b t.root
  if r.2.isNull then { t with root := r.1 }
  else { t with root := .node (nodeCache [r.1, r.2]) [r.1, r.2] }

/-- The tree obtained from a fresh `RTree(maxE, minE)` by the given
`Insert(key, box)` calls, in order. -/
def buildT (P : RParams K) (maxE minE : ℕ) (l : List (ℕ × RTreeBBox K)) :
    RTree K :=
  l.foldl (fun t kb => t.insertT P kb.1 kb.2) (mkRTree maxE minE)

/-- Mirrors `RTree::Search` (returns `[]` for a null root). -/
def RTree.searchT (t : RTree K) (q : RTreeBBox K) : List ℕ := searchN q t.root

/-- All entries stored in the index. -/
def entriesT (t : RTree K) : List (REntry K) := entriesN t.root

/-- All-zero parameters for traces whose boxes are latitude-degenerate
(`minLat = maxLat` everywhere): there `Area` is
`R²·Δlon·(π/180)·(sin x − sin x) = 0` for the *true* sine and any `π`
value, and the model's `sinDeg = 0, piv = 1` produce the same `0`, so every
comparison made by such a trace agrees exactly with the C++ double
computation (`std::sin(0.0) = 0.0` exactly).  `sqrtFn` is never invoked by
insertion, search or deletion. -/
def pFlat : RParams ℚ := ⟨fun _ => 0, 1, fun _ => 0⟩

/-- A box `(minLat, minLon, maxLat, maxLon)` with rational coordinates. -/
def bx (a b c d : ℚ) : RTreeBBox ℚ := ⟨a, b, c, d⟩

/-- Prepend a child unless it is the null pointer (the
`if (updatedChild) newChildren.push_back(...)` guard). -/
def consNN (c : RNode K) (l : List (RNode K)) : List (RNode K) :=
  match c with
  | .null => l
  | c => c :: l

/-- Drop null children (each loop iteration starts with
`if (!child) continue`). -/
def filterNN (l : List (RNode K)) : List (RNode K) :=
  l.filter fun c => !c.isNull

mutual

/-- Mirrors `RTree::DeleteInternal`.  At a leaf, filter out every entry whose key
matches; `found` is whether anything was removed; an emptied node becomes
null, otherwise a fresh leaf is rebuilt (cached box recomputed).  At an
internal node the children are processed in order until one recursion
succeeds; the loop `std::move`s each visited child out of the vector, so
when the key is found nowhere the function returns the *original* node
object whose children have all been moved from — i.e. are now null —
while the moved-out subtrees are dropped with the discarded `newChildren`
vector. -/
def deleteN (k : ℕ) : RNode K → RNode K × Bool
  | .null => (.null, false)
  | .leaf cached es =>
    let kept := es.filter fun e => e.1 != k
    if kept.length = es.length then (.leaf cached es, false)
    else if kept.isEmpty then (.null, true)
    else (.leaf (leafCache kept) kept, true)
  | .node cached cs =>
    let r := deleteL k cs
    if r.2 then
      if r.1.isEmpty then (.null, true)
      else (.node (nodeCache r.1) r.1, true)
    else (.node cached (cs.map fun _ => .null), false)

/-- The child loop of `DeleteInternal`: skip null children; recurse into
each child until a recursion reports success, then keep the remaining
children unchanged.  Returns the `newChildren` vector and the success
flag. -/
def deleteL (k : ℕ) : List (RNode K) → List (RNode K) × Bool
  | [] => ([], false)
  | .null :: rest => deleteL k rest
  | c :: rest =>
    let r := deleteN k c
    if r.2 then (consNN r.1 (filterNN rest), true)
    else
      let rr := deleteL k rest
      (r.1 :: rr.1, rr.2)

end

/-- Mirrors `RTree::Delete`: run `DeleteInternal` on the root, then collapse an
internal root having exactly one child. -/
def RTree.deleteT (t : RTree K) (k : ℕ) : RTree K × Bool :=
  let r := deleteN k t.root
  let root' :=
    match r.1 with
    | .node _ [c] => c
    | n => n
  ({ t with root := root' }, r.2)

/-- Mirrors `RTree::DistanceToBox`: `0` if the box contains the point; otherwise
the Euclidean distance (through `sqrtFn` = `std::sqrt`) from the point to
the clamped closest point of the box, minus the tie-breaker
`0.0001 * (centerLat + centerLon)` (the C++ decimal literal `0.0001` read
exactly as `1/10000`). -/
def distToBox (P : RParams K) (lat lon : K) (b : RTreeBBox K) : K :=
  if b.containsPt lat lon then 0
  else
    let closestLat := max b.minLat (min lat b.maxLat)
    let closestLon := max b.minLon (min lon b.maxLon)
    let dLat := lat - closestLat
    let dLon := lon - closestLon
    let e := P.sqrtFn (dLat * dLat + dLon * dLon)
    let centerLat := (b.minLat + b.maxLat) / 2
    let centerLon := (b.minLon + b.maxLon) / 2
    e - 1 / 10000 * (centerLat + centerLon)

/-- Insert a `(distance, child)` pair into an ascending-by-distance list;
`sortPairs` below is an insertion sort, which agrees with the `std::sort`
call in `FindNearestInternal` whenever the distances are pairwise distinct
(for ties `std::sort` leaves the order unspecified). -/
def sortIns (x : K × RNode K) : List (K × RNode K) → List (K × RNode K)
  | [] => [x]
  | y :: rest => if x.1 < y.1 then x :: y :: rest else y :: sortIns x rest

/-- Sort children ascending by their distance key. -/
def sortPairs (l : List (K × RNode K)) : List (K × RNode K) :=
  l.foldr sortIns []

/-- Mirrors `RTree::FindNearestInternal`, tracking the running best
`NearestItem {index, distance}`.  A leaf scans its entries with strict
improvement; an internal node sorts its children by `DistanceToBox` to
their cached boxes and visits them in ascending order, stopping entirely at
the first child whose distance exceeds the current best.  The fuel
argument only bounds the recursion depth; callers pass the node count, so
the `0` case is unreachable. -/
def findNearestGo (P : RParams K) (lat lon : K) :
    ℕ → RNode K → ℕ × K → ℕ × K
  | _, .null, nr => nr
  | _, .leaf _ es, nr =>
    es.foldl (fun nr e =>
      let d := distToBox P lat lon e.2
      if d < nr.2 then (e.1, d) else nr) nr
  | 0, .node _ _, nr => nr
  | fuel + 1, .node _ cs, nr =>
    let sorted := sortPairs (cs.map fun c => (distToBox P lat lon (getBBox c), c))
    (sorted.foldl (fun st p =>
      if st.1 then st
      else if p.1 > st.2.2 then (true, st.2)
      else (false, findNearestGo P lat lon fuel p.2 st.2)) (false, nr)).2

/-- Mirrors `RTree::FindNearest`: `0` on a null root, else the index of the
`NearestItem` after the recursive search started from
`{index = 0, distance = DBL_MAX}`. -/
def RTree.findNearestT (t : RTree K) (P : RParams K) (lat lon : K) : ℕ :=
  match t.root with
  | .null => 0
  | r => (findNearestGo P lat lon (sizeN r) r (0, DMAX K)).1

/-- Modelled from the spec (§8, "the brute-force minimum of
`DistanceToBox` over all boxes"): one scan over all stored entries with the
same strict-improvement update and the same `{0, DBL_MAX}` start as the
leaf case of `FindNearestInternal`. -/
def bruteNearest (P : RParams K) (es : List (REntry K)) (lat lon : K) : ℕ :=
  (es.foldl (fun nr e =>
    let d := distToBox P lat lon e.2
    if d < nr.2 then (e.1, d) else nr) ((0 : ℕ), DMAX K)).1

mutual

/-- Well-formed node: not null, and an internal node has a non-empty list
of well-formed children.  Every tree reachable from the public `Insert`
API satisfies this. -/
def wfN : RNode K → Prop
  | .null => False
  | .leaf _ _ => True
  | .node _ cs => cs ≠ [] ∧ wfL cs

/-- All children well-formed. -/
def wfL : List (RNode K) → Prop
  | [] => True
  | c :: cs => wfN c ∧ wfL cs

end

/-- Entry count of each child of the root (in order); `[]` when the root
is not an internal node. -/
def childEntryCounts (t : RTree K) : List ℕ :=
  match t.root with
  | .node _ cs => cs.map fun c => (entriesN c).length
  | _ => []

/-- The root's cached bounding box. -/
def rootCached (t : RTree K) : RTreeBBox K := getBBox t.root

/-- The exact union of the root's children's cached boxes (what the cached
root box is supposed to equal for an internal root). -/
def rootChildrenUnion (t : RTree K) : RTreeBBox K :=
  match t.root with
  | .node _ cs => nodeCache cs
  | n => getBBox n

/-- A point box at latitude `0`, longitude `x`. -/
def pt (x : ℚ) : RTreeBBox ℚ := bx 0 x 0 x

/-- Four latitude-degenerate point entries; inserting them into an
`RTree(4, 2)` makes the leaf reach `maxEntries` and split. -/
def t4flat : RTree ℚ :=
  buildT pFlat 4 2 [(1, pt 0), (2, pt 1), (3, pt 2), (4, pt 3)]

/-- Five flat inserts: the fifth lands in a child leaf without splitting,
so the root's cached box is left stale. -/
def t5flat : RTree ℚ := (t4flat.insertT pFlat 5 (pt 100))

/-- Parameters for the `FindNearest` trace of `tNear` below.  All its boxes
are latitude-degenerate, so `sinDeg`/`piv` never influence a comparison
(every area is exactly `0`, as with real `sin` and `M_PI`); `sqrtFn`
tabulates the exact square roots of the four perfect squares
`5000², 5001², 10000², 45000²`, the only arguments `DistanceToBox`
ever passes to `std::sqrt` in this trace (`dLat = 0` throughout). -/
def pNear : RParams ℚ :=
  ⟨fun _ => 0, 1, fun q =>
    if q = 5000 * 5000 then 5000
    else if q = 5001 * 5001 then 5001
    else if q = 10000 * 10000 then 10000
    else if q = 45000 * 45000 then 45000
    else 0⟩

/-- The four-entry tree of the nearest-neighbour trace. -/
def tNear : RTree ℚ :=
  buildT pNear 4 2 [(1, pt 40000), (2, pt 5000), (3, pt 45000), (4, pt 44999)]

/-- Parameters for traces whose boxes all span latitudes `0` to `90`:
`sinDeg 0 = 0` and `sinDeg 90 = 1` agree exactly with the real
`sin(x·π/180)` at the only latitudes occurring, and `piv = 1` rescales
every area by the fixed positive factor `1/π` relative to the C++ doubles.
All comparisons such a trace makes are between areas, enlargements,
waste values and the initial `maxWaste = −1`; the former all carry the
common positive factor (and in these traces the wastes compared against
`−1` are non-negative), so every branch taken coincides with the real
computation. -/
def pBand : RParams ℚ := ⟨fun x => if x = 90 then 1 else 0, 1, fun _ => 0⟩

/-- A full-height box: latitudes `0..90`, longitudes `u..v`. -/
def fh (u v : ℚ) : RTreeBBox ℚ := bx 0 u 90 v

/-- Four full-height boxes for which the split's forced-assignment rule
fires too late: the seed pair is `(1, 2)` and both remaining entries
prefer group 2, leaving group 1 with a single item. -/
def tBand : RTree ℚ :=
  buildT pBand 4 2 [(1, fh 0 10), (2, fh 100 101), (3, fh 1 2), (4, fh 3 4)]

/-- The box sequence on which the leaf split and the internal split
distribute the items differently. -/
def c5boxes : List (RTreeBBox ℚ) := [fh 0 2, fh 60 62, fh 4 6, fh 31 33]

/-- The entry list corresponding to `c5boxes`. -/
def es5 : List (REntry ℚ) := [(1, fh 0 2), (2, fh 60 62), (3, fh 4 6), (4, fh 31 33)]

/-- The two-copy tree for C10: the same key `7` inserted twice, both
entries living in the same (root) leaf. -/
def tdup : RTree ℚ := buildT pFlat 4 2 [(7, pt 0), (7, pt 1)]

/-- The four-entry tree of the amended C10, whose two copies of key `7`
end up in different leaves after the split. -/
def tdup2 : RTree ℚ := buildT pFlat 4 2 [(7, pt 0), (7, pt 1), (8, pt 2), (9, pt 3)]

section ListHelpers

variable {α : Type}

theorem getD_mem : ∀ (l : List α) (i : ℕ) (d : α), i < l.length → l.getD i d ∈ l
  | a :: as, 0, d, _ => List.mem_cons_self a as
  | a :: as, i + 1, d, h => by
    have := getD_mem as i d (by simpa using h)
    simpa [List.getD_cons_succ] using Or.inr this

theorem mem_eraseIdx_getD :
    ∀ (l : List α) (i : ℕ) (d : α), i < l.length →
      ∀ x, x ∈ l ↔ x = l.getD i d ∨ x ∈ l.eraseIdx i
  | a :: as, 0, d, _, x => by simp [List.eraseIdx]
  | a :: as, i + 1, d, h, x => by
    have ih := mem_eraseIdx_getD as i d (by simpa using h) x
    simp only [List.eraseIdx, List.getD_cons_succ, List.mem_cons, ih]
    tauto

theorem length_eraseIdx' :
    ∀ (l : List α) (i : ℕ), i < l.length → (l.eraseIdx i).length = l.length - 1
  | a :: as, 0, _ => by simp [List.eraseIdx]
  | a :: as, i + 1, h => by
    have hi : i < as.length := by simpa using h
    have ih := length_eraseIdx' as i hi
    simp only [List.eraseIdx, List.length_cons, ih]
    omega

end ListHelpers

theorem mem_filterIdx_self {α : Type} (s1 s2 : ℕ) :
    ∀ (l : List α) (i : ℕ) (x : α), x ∈ filterIdx s1 s2 i l → x ∈ l
  | a :: as, i, x, h => by
    by_cases hc : i = s1 ∨ i = s2
    · simp only [filterIdx, if_pos hc] at h
      exact List.mem_cons_of_mem a (mem_filterIdx_self s1 s2 as (i + 1) x h)
    · simp only [filterIdx, if_neg hc, List.mem_cons] at h
      rcases h with h | h
      · exact h ▸ List.mem_cons_self a as
      · exact List.mem_cons_of_mem a (mem_filterIdx_self s1 s2 as (i + 1) x h)

theorem mem_filterIdx_of_mem {α : Type} (s1 s2 : ℕ) (d : α) :
    ∀ (l : List α) (i : ℕ) (x : α), x ∈ l →
      x ∈ filterIdx s1 s2 i l ∨ (i ≤ s1 ∧ x = l.getD (s1 - i) d) ∨
        (i ≤ s2 ∧ x = l.getD (s2 - i) d)
  | a :: as, i, x, h => by
    rcases List.mem_cons.1 h with rfl | h
    · by_cases hc : i = s1 ∨ i = s2
      · rcases hc with rfl | rfl
        · exact Or.inr (Or.inl ⟨le_refl _, by simp⟩)
        · exact Or.inr (Or.inr ⟨le_refl _, by simp⟩)
      · left
        simp only [filterIdx, if_neg hc]
        exact List.mem_cons_self _ _
    · rcases mem_filterIdx_of_mem s1 s2 d as (i + 1) x h with h' | ⟨hle, he⟩ | ⟨hle, he⟩
      · left
        by_cases hc : i = s1 ∨ i = s2
        · simpa [filterIdx, if_pos hc] using h'
        · simp only [filterIdx, if_neg hc]
          exact List.mem_cons_of_mem a h'
      · right; left
        refine ⟨by omega, ?_⟩
        have : s1 - i = (s1 - (i + 1)) + 1 := by omega
        rw [this, List.getD_cons_succ]
        exact he
      · right; right
        refine ⟨by omega, ?_⟩
        have : s2 - i = (s2 - (i + 1)) + 1 := by omega
        rw [this, List.getD_cons_succ]
        exact he

mutual

theorem searchN_eq (q : RTreeBBox K) :
    ∀ n : RNode K,
      searchN q n = ((entriesN n).filter fun e => decide (e.2.intersects q)).map Prod.fst
  | .null => rfl
  | .leaf c es => rfl
  | .node c cs => by rw [searchN, entriesN, searchL_eq q cs]

theorem searchL_eq (q : RTreeBBox K) :
    ∀ cs : List (RNode K),
      searchL q cs = ((entriesL cs).filter fun e => decide (e.2.intersects q)).map Prod.fst
  | [] => rfl
  | c :: cs => by
    rw [searchL, entriesL, searchN_eq q c, searchL_eq q cs, List.filter_append,
      List.map_append]

end

theorem mem_entriesL_iff (x : REntry K) :
    ∀ cs : List (RNode K), x ∈ entriesL cs ↔ ∃ c ∈ cs, x ∈ entriesN c
  | [] => by simp [entriesL]
  | c :: cs => by
    simp [entriesL, List.mem_append, mem_entriesL_iff x cs]

theorem entriesL_append (l1 l2 : List (RNode K)) :
    entriesL (l1 ++ l2) = entriesL l1 ++ entriesL l2 := by
  induction l1 with
  | nil => simp [entriesL]
  | cons c cs ih => simp [entriesL, ih]

theorem pairList_mem_lt {n : ℕ} {p : ℕ × ℕ} (h : p ∈ pairList n) :
    p.1 < p.2 ∧ p.2 < n := by
  simp only [pairList, List.mem_flatMap, List.mem_map, List.mem_filter,
    List.mem_range] at h
  obtain ⟨i, hi, j, ⟨hj, hij⟩, rfl⟩ := h
  exact ⟨by simpa using hij, hj⟩

/-- The seed-scan fold keeps both seed components within bounds and in
strictly increasing order, as long as it starts that way. -/
theorem seedFold_inv {n : ℕ} (f : ℕ × ℕ → K)
    (l : List (ℕ × ℕ)) (hl : ∀ p ∈ l, p.1 < p.2 ∧ p.2 < n) :
    ∀ st : K × ℕ × ℕ, st.2.1 < st.2.2 → st.2.2 < n →
      (l.foldl (fun st ij => if f ij > st.1 then (f ij, ij.1, ij.2) else st) st).2.1 <
          (l.foldl (fun st ij => if f ij > st.1 then (f ij, ij.1, ij.2) else st) st).2.2 ∧
        (l.foldl (fun st ij => if f ij > st.1 then (f ij, ij.1, ij.2) else st) st).2.2 < n := by
  induction l with
  | nil => intro st h1 h2; exact ⟨h1, h2⟩
  | cons p ps ih =>
    intro st h1 h2
    have hp := hl p (List.mem_cons_self _ _)
    have hps : ∀ q ∈ ps, q.1 < q.2 ∧ q.2 < n := fun q hq => hl q (List.mem_cons_of_mem _ hq)
    simp only [List.foldl_cons]
    by_cases hc : f p > st.1
    · rw [if_pos hc]
      exact ih hps _ hp.1 hp.2
    · rw [if_neg hc]
      exact ih hps _ h1 h2

/-- Bounds-only version of the seed-scan invariant (the leaf variant starts
from the non-increasing pair `(0, 0)`). -/
theorem seedFold_bounds {n : ℕ} (f : ℕ × ℕ → K)
    (l : List (ℕ × ℕ)) (hl : ∀ p ∈ l, p.1 < n ∧ p.2 < n) :
    ∀ st : K × ℕ × ℕ, st.2.1 < n → st.2.2 < n →
      (l.foldl (fun st ij => if f ij > st.1 then (f ij, ij.1, ij.2) else st) st).2.1 < n ∧
        (l.foldl (fun st ij => if f ij > st.1 then (f ij, ij.1, ij.2) else st) st).2.2 < n := by
  induction l with
  | nil => intro st h1 h2; exact ⟨h1, h2⟩
  | cons p ps ih =>
    intro st h1 h2
    have hp := hl p (List.mem_cons_self _ _)
    have hps : ∀ q ∈ ps, q.1 < n ∧ q.2 < n := fun q hq => hl q (List.mem_cons_of_mem _ hq)
    simp only [List.foldl_cons]
    by_cases hc : f p > st.1
    · rw [if_pos hc]
      exact ih hps _ hp.1 hp.2
    · rw [if_neg hc]
      exact ih hps _ h1 h2

theorem chooseSeeds_lt (P : RParams K) (es : List (REntry K)) (h : es ≠ []) :
    (chooseSeeds P es).1 < es.length ∧ (chooseSeeds P es).2 < es.length := by
  have hn : 0 < es.length := List.length_pos.2 h
  have hl : ∀ p ∈ pairList es.length, p.1 < es.length ∧ p.2 < es.length := by
    intro p hp
    have := pairList_mem_lt hp
    omega
  exact seedFold_bounds
    (fun ij => boxWaste P (es.getD ij.1 (0, emptyBox)).2 (es.getD ij.2 (0, emptyBox)).2)
    (pairList es.length) hl ((-1 : K), 0, 0) hn hn

theorem chooseSeedsForNodes_lt (P : RParams K) (cs : List (RNode K)) (h : 2 ≤ cs.length) :
    (chooseSeedsForNodes P cs).1 < (chooseSeedsForNodes P cs).2 ∧
      (chooseSeedsForNodes P cs).2 < cs.length := by
  have hl : ∀ p ∈ pairList cs.length, p.1 < p.2 ∧ p.2 < cs.length := fun p hp =>
    pairList_mem_lt hp
  exact seedFold_inv
    (fun ij => boxWaste P (getBBox (cs.getD ij.1 .null)) (getBBox (cs.getD ij.2 .null)))
    (pairList cs.length) hl ((-1 : K), 0, 1) (by simp) (by simpa using h)

theorem assignGo_mem (P : RParams K) (minE : ℕ) :
    ∀ (rem g1 g2 : List (REntry K)) (b1 b2 : RTreeBBox K) (x : REntry K),
      (x ∈ (assignGo P minE rem g1 g2 b1 b2).1 ∨
        x ∈ (assignGo P minE rem g1 g2 b1 b2).2) ↔
        x ∈ rem ∨ x ∈ g1 ∨ x ∈ g2
  | [], g1, g2, b1, b2, x => by simp [assignGo]
  | e :: rest, g1, g2, b1, b2, x => by
    simp only [assignGo]
    split
    · rw [assignGo_mem P minE rest (g1 ++ [e]) g2 _ b2 x]
      simp only [List.mem_append, List.mem_singleton, List.mem_cons]
      tauto
    · split
      · rw [assignGo_mem P minE rest g1 (g2 ++ [e]) b1 _ x]
        simp only [List.mem_append, List.mem_singleton, List.mem_cons]
        tauto
      · split
        · rw [assignGo_mem P minE rest (g1 ++ [e]) g2 _ b2 x]
          simp only [List.mem_append, List.mem_singleton, List.mem_cons]
          tauto
        · rw [assignGo_mem P minE rest g1 (g2 ++ [e]) b1 _ x]
          simp only [List.mem_append, List.mem_singleton, List.mem_cons]
          tauto

/-- Core membership fact for the leaf split: seeds plus the filtered
remainder exhaust the entry list. -/
theorem splitCore_mem (P : RParams K) (minE : ℕ) (es : List (REntry K))
    (s1 s2 : ℕ) (h1 : s1 < es.length) (h2 : s2 < es.length) (x : REntry K) :
    (x ∈ (assignGo P minE (filterIdx s1 s2 0 es) [es.getD s1 (0, emptyBox)]
        [es.getD s2 (0, emptyBox)] (es.getD s1 (0, emptyBox)).2
        (es.getD s2 (0, emptyBox)).2).1 ∨
      x ∈ (assignGo P minE (filterIdx s1 s2 0 es) [es.getD s1 (0, emptyBox)]
        [es.getD s2 (0, emptyBox)] (es.getD s1 (0, emptyBox)).2
        (es.getD s2 (0, emptyBox)).2).2) ↔ x ∈ es := by
  rw [assignGo_mem]
  constructor
  · rintro (hr | hx | hx)
    · exact mem_filterIdx_self _ _ es 0 x hr
    · rcases List.mem_singleton.1 hx with rfl
      exact getD_mem es _ _ h1
    · rcases List.mem_singleton.1 hx with rfl
      exact getD_mem es _ _ h2
  · intro hx
    rcases mem_filterIdx_of_mem s1 s2 (0, emptyBox) es 0 x hx with h' | ⟨_, he⟩ | ⟨_, he⟩
    · exact Or.inl h'
    · exact Or.inr (Or.inl (List.mem_singleton.2 (by simpa using he)))
    · exact Or.inr (Or.inr (List.mem_singleton.2 (by simpa using he)))

theorem splitLeafGroups_mem (P : RParams K) (minE : ℕ) (es : List (REntry K))
    (h : es ≠ []) (x : REntry K) :
    (x ∈ (splitLeafGroups P minE es).1 ∨ x ∈ (splitLeafGroups P minE es).2) ↔
      x ∈ es := by
  obtain ⟨hs1, hs2⟩ := chooseSeeds_lt P es h
  simp only [splitLeafGroups]
  by_cases hgt : (chooseSeeds P es).1 > (chooseSeeds P es).2
  · simp only [if_pos hgt]
    exact splitCore_mem P minE es _ _ hs2 hs1 x
  · simp only [if_neg hgt]
    exact splitCore_mem P minE es _ _ hs1 hs2 x

theorem pickMinDiffAux_lt (P : RParams K) (b1 b2 : RTreeBBox K) {n : ℕ} :
    ∀ (l : List (RNode K)) (i best : ℕ) (bd : K), best < n → i + l.length ≤ n →
      pickMinDiffAux P b1 b2 l i best bd < n
  | [], i, best, bd, hb, _ => hb
  | c :: rest, i, best, bd, hb, hl => by
    simp only [pickMinDiffAux]
    split
    · exact pickMinDiffAux_lt P b1 b2 rest (i + 1) i _ (by simp at hl; omega)
        (by simp at hl; omega)
    · exact pickMinDiffAux_lt P b1 b2 rest (i + 1) best _ hb (by simp at hl; omega)

theorem pickMinDiff_lt (P : RParams K) (b1 b2 : RTreeBBox K)
    (cs : List (RNode K)) (h : cs ≠ []) : pickMinDiff P b1 b2 cs < cs.length :=
  pickMinDiffAux_lt P b1 b2 cs 0 0 (DMAX K) (List.length_pos.2 h) (by omega)

theorem distNodes_mem (P : RParams K) (minE : ℕ) :
    ∀ (fuel : ℕ) (cs g1 g2 : List (RNode K)) (b1 b2 : RTreeBBox K)
      (hf : cs.length ≤ fuel) (x : RNode K),
      (x ∈ (distNodes P minE fuel cs g1 g2 b1 b2).1 ∨
        x ∈ (distNodes P minE fuel cs g1 g2 b1 b2).2) ↔
        x ∈ cs ∨ x ∈ g1 ∨ x ∈ g2
  | fuel, [], g1, g2, b1, b2, _, x => by simp [distNodes]
  | 0, c :: cs, g1, g2, b1, b2, hf, x => by simp at hf
  | fuel + 1, c0 :: cs0, g1, g2, b1, b2, hf, x => by
    have hne : (c0 :: cs0 : List (RNode K)) ≠ [] := by simp
    have hbc := pickMinDiff_lt P b1 b2 (c0 :: cs0) hne
    have hdecomp := mem_eraseIdx_getD (c0 :: cs0) (pickMinDiff P b1 b2 (c0 :: cs0))
      RNode.null hbc x
    have hlen := length_eraseIdx' (c0 :: cs0) (pickMinDiff P b1 b2 (c0 :: cs0)) hbc
    have hf' : ((c0 :: cs0).eraseIdx (pickMinDiff P b1 b2 (c0 :: cs0))).length ≤ fuel := by
      rw [hlen]; simp at hf ⊢; omega
    simp only [distNodes]
    split
    · rw [distNodes_mem P minE fuel _ _ _ _ _ hf' x]
      simp only [List.mem_append, List.mem_singleton, hdecomp]
      tauto
    · split
      · rw [distNodes_mem P minE fuel _ _ _ _ _ hf' x]
        simp only [List.mem_append, List.mem_singleton, hdecomp]
        tauto
      · split
        · rw [distNodes_mem P minE fuel _ _ _ _ _ hf' x]
          simp only [List.mem_append, List.mem_singleton, hdecomp]
          tauto
        · rw [distNodes_mem P minE fuel _ _ _ _ _ hf' x]
          simp only [List.mem_append, List.mem_singleton, hdecomp]
          tauto

theorem splitInternalGroups_mem (P : RParams K) (minE : ℕ) (cs : List (RNode K))
    (h : 2 ≤ cs.length) (x : RNode K) :
    (x ∈ (splitInternalGroups P minE cs).1 ∨
      x ∈ (splitInternalGroups P minE cs).2) ↔ x ∈ cs := by
  obtain ⟨hs12, hs2⟩ := chooseSeedsForNodes_lt P cs h
  have hngt : ¬(chooseSeedsForNodes P cs).1 > (chooseSeedsForNodes P cs).2 := by omega
  have hs1 : (chooseSeedsForNodes P cs).1 < cs.length := by omega
  have hlen1 := length_eraseIdx' cs (chooseSeedsForNodes P cs).1 hs1
  have hs2' : (chooseSeedsForNodes P cs).2 - 1 <
      (cs.eraseIdx (chooseSeedsForNodes P cs).1).length := by rw [hlen1]; omega
  have hd1 := mem_eraseIdx_getD cs (chooseSeedsForNodes P cs).1 RNode.null hs1 x
  have hd2 := mem_eraseIdx_getD (cs.eraseIdx (chooseSeedsForNodes P cs).1)
    ((chooseSeedsForNodes P cs).2 - 1) RNode.null hs2' x
  simp only [splitInternalGroups, if_neg hngt]
  rw [distNodes_mem P minE _ _ _ _ _ _ (le_refl _) x]
  simp only [List.mem_singleton, hd1, hd2]
  tauto

theorem wfL_of_mem : ∀ {cs : List (RNode K)} {x : RNode K}, wfL cs → x ∈ cs → wfN x
  | c :: cs, x, h, hx => by
    rw [wfL] at h
    rcases List.mem_cons.1 hx with rfl | hx
    · exact h.1
    · exact wfL_of_mem h.2 hx

theorem wfL_of_forall : ∀ {cs : List (RNode K)}, (∀ x ∈ cs, wfN x) → wfL cs
  | [], _ => trivial
  | c :: cs, h => by
    rw [wfL]
    exact ⟨h c (List.mem_cons_self _ _),
      wfL_of_forall fun x hx => h x (List.mem_cons_of_mem _ hx)⟩

theorem wfL_append {l1 l2 : List (RNode K)} (h1 : wfL l1) (h2 : wfL l2) :
    wfL (l1 ++ l2) := by
  induction l1 with
  | nil => simpa using h2
  | cons c cs ih =>
    rw [wfL] at h1
    rw [List.cons_append, wfL]
    exact ⟨h1.1, ih h1.2⟩

theorem len_le_app {α : Type} (l : List α) (a : α) : l.length ≤ (l ++ [a]).length := by
  simp

theorem distNodes_len_ge (P : RParams K) (minE : ℕ) :
    ∀ (fuel : ℕ) (cs g1 g2 : List (RNode K)) (b1 b2 : RTreeBBox K),
      g1.length ≤ (distNodes P minE fuel cs g1 g2 b1 b2).1.length ∧
        g2.length ≤ (distNodes P minE fuel cs g1 g2 b1 b2).2.length
  | fuel, [], g1, g2, b1, b2 => by simp [distNodes]
  | 0, c :: cs, g1, g2, b1, b2 => by simp [distNodes]
  | fuel + 1, c0 :: cs0, g1, g2, b1, b2 => by
    simp only [distNodes]
    split
    · exact ⟨le_trans (len_le_app g1 _) (distNodes_len_ge P minE fuel _ _ _ _ _).1,
        (distNodes_len_ge P minE fuel _ _ _ _ _).2⟩
    · split
      · exact ⟨(distNodes_len_ge P minE fuel _ _ _ _ _).1,
          le_trans (len_le_app g2 _) (distNodes_len_ge P minE fuel _ _ _ _ _).2⟩
      · split
        · exact ⟨le_trans (len_le_app g1 _) (distNodes_len_ge P minE fuel _ _ _ _ _).1,
            (distNodes_len_ge P minE fuel _ _ _ _ _).2⟩
        · exact ⟨(distNodes_len_ge P minE fuel _ _ _ _ _).1,
            le_trans (len_le_app g2 _) (distNodes_len_ge P minE fuel _ _ _ _ _).2⟩

theorem distNodes_ne (P : RParams K) (minE fuel : ℕ) (cs : List (RNode K))
    (c1 c2 : RNode K) (b1 b2 : RTreeBBox K) :
    (distNodes P minE fuel cs [c1] [c2] b1 b2).1 ≠ [] ∧
      (distNodes P minE fuel cs [c1] [c2] b1 b2).2 ≠ [] := by
  have h := distNodes_len_ge P minE fuel cs [c1] [c2] b1 b2
  simp only [List.length_singleton] at h
  exact ⟨List.length_pos.1 (by omega), List.length_pos.1 (by omega)⟩

theorem splitInternalGroups_ne (P : RParams K) (minE : ℕ) (cs : List (RNode K)) :
    (splitInternalGroups P minE cs).1 ≠ [] ∧
      (splitInternalGroups P minE cs).2 ≠ [] := by
  simp only [splitInternalGroups]
  exact distNodes_ne P minE _ _ _ _ _ _

theorem chooseBestAux_lt (P : RParams K) (b : RTreeBBox K) {n : ℕ} :
    ∀ (l : List (RNode K)) (i best : ℕ) (mE mA : K), best < n → i + l.length ≤ n →
      chooseBestAux P b l i best mE mA < n
  | [], i, best, mE, mA, hb, _ => hb
  | c :: rest, i, best, mE, mA, hb, hl => by
    simp only [chooseBestAux]
    split
    · exact chooseBestAux_lt P b rest (i + 1) i _ _ (by simp at hl; omega)
        (by simp at hl; omega)
    · split
      · exact chooseBestAux_lt P b rest (i + 1) i _ _ (by simp at hl; omega)
          (by simp at hl; omega)
      · exact chooseBestAux_lt P b rest (i + 1) best _ _ hb (by simp at hl; omega)

theorem chooseBestChild_lt (P : RParams K) (cs : List (RNode K)) (b : RTreeBBox K)
    (h : cs ≠ []) : chooseBestChild P cs b < cs.length := by
  match cs with
  | c :: rest =>
    simp only [chooseBestChild]
    exact chooseBestAux_lt P b rest 1 0 _ _ (by simp) (by simp; omega)

theorem insertL_len (P : RParams K) (maxE minE k : ℕ) (b : RTreeBBox K) :
    ∀ (cs : List (RNode K)) (i : ℕ),
      (insertL P maxE minE k b cs i).1.length = cs.length
  | [], _ => rfl
  | c :: rest, 0 => by simp [insertL]
  | c :: rest, i + 1 => by
    simp [insertL, insertL_len P maxE minE k b rest i]

theorem splitInternalNode_wf (P : RParams K) (minE : ℕ) (cs : List (RNode K))
    (h2 : 2 ≤ cs.length) (hw : wfL cs) :
    wfN (splitInternalNode P minE cs).1 ∧ wfN (splitInternalNode P minE cs).2 := by
  have hne := splitInternalGroups_ne P minE cs
  constructor
  · show wfN (.node _ _)
    rw [wfN]
    exact ⟨hne.1, wfL_of_forall fun x hx =>
      wfL_of_mem hw ((splitInternalGroups_mem P minE cs h2 x).1 (Or.inl hx))⟩
  · show wfN (.node _ _)
    rw [wfN]
    exact ⟨hne.2, wfL_of_forall fun x hx =>
      wfL_of_mem hw ((splitInternalGroups_mem P minE cs h2 x).1 (Or.inr hx))⟩

theorem isNull_iff (n : RNode K) : n.isNull = true ↔ n = .null := by
  cases n <;> simp [RNode.isNull]

/-- Well-formedness of the result of the internal-node arm of
`InsertInternal` once the recursive call returned a non-null sibling. -/
theorem insertNodeArm_wf (P : RParams K) (maxE minE : ℕ)
    (cs' : List (RNode K)) (sib : RNode K) (hw1 : wfL cs') (hsib : wfN sib)
    (hne : cs' ≠ []) :
    wfN (if maxE ≤ (cs' ++ [sib]).length then splitInternalNode P minE (cs' ++ [sib])
        else (.node (nodeCache (cs' ++ [sib])) (cs' ++ [sib]), .null)).1 ∧
      ((if maxE ≤ (cs' ++ [sib]).length then splitInternalNode P minE (cs' ++ [sib])
        else (.node (nodeCache (cs' ++ [sib])) (cs' ++ [sib]), .null)).2 = .null ∨
        wfN (if maxE ≤ (cs' ++ [sib]).length then splitInternalNode P minE (cs' ++ [sib])
        else (.node (nodeCache (cs' ++ [sib])) (cs' ++ [sib]), .null)).2) := by
  have h2 : 2 ≤ (cs' ++ [sib]).length := by
    have := List.length_pos.2 hne
    simp only [List.length_append, List.length_singleton]
    omega
  have hw : wfL (cs' ++ [sib]) := wfL_append hw1 (by rw [wfL]; exact ⟨hsib, trivial⟩)
  split
  · exact ⟨(splitInternalNode_wf P minE _ h2 hw).1,
      Or.inr (splitInternalNode_wf P minE _ h2 hw).2⟩
  · refine ⟨?_, Or.inl rfl⟩
    rw [wfN]
    exact ⟨by simp, hw⟩

mutual

theorem insertN_wf (P : RParams K) (maxE minE k : ℕ) (b : RTreeBBox K) :
    ∀ n : RNode K, wfN n →
      wfN (insertN P maxE minE k b n).1 ∧
        ((insertN P maxE minE k b n).2 = .null ∨ wfN (insertN P maxE minE k b n).2)
  | .null, h => by rw [wfN] at h; exact h.elim
  | .leaf cached es, _ => by
    simp only [insertN]
    split
    · exact ⟨by simp [splitLeafNode, wfN], Or.inr (by simp [splitLeafNode, wfN])⟩
    · exact ⟨by rw [wfN]; trivial, Or.inl rfl⟩
  | .node cached cs, h => by
    rw [wfN] at h
    obtain ⟨hne, hwl⟩ := h
    have hw := insertL_wf P maxE minE k b cs (chooseBestChild P cs b) hwl
    have hlen := insertL_len P maxE minE k b cs (chooseBestChild P cs b)
    rcases hL : insertL P maxE minE k b cs (chooseBestChild P cs b) with ⟨cs', sib⟩
    rw [hL] at hw hlen
    simp only at hw hlen
    have hne' : cs' ≠ [] := by
      intro hc
      rw [hc] at hlen
      exact hne (List.eq_nil_of_length_eq_zero hlen.symm)
    simp only [insertN, hL]
    by_cases hnull : sib.isNull = true
    · rw [if_pos hnull]
      refine ⟨?_, Or.inl rfl⟩
      rw [wfN]
      exact ⟨hne', hw.1⟩
    · rw [if_neg hnull]
      have hsib : wfN sib := by
        rcases hw.2 with h' | h'
        · exact absurd ((isNull_iff sib).2 h') hnull
        · exact h'
      exact insertNodeArm_wf P maxE minE cs' sib hw.1 hsib hne'

theorem insertL_wf (P : RParams K) (maxE minE k : ℕ) (b : RTreeBBox K) :
    ∀ (cs : List (RNode K)) (i : ℕ), wfL cs →
      wfL (insertL P maxE minE k b cs i).1 ∧
        ((insertL P maxE minE k b cs i).2 = .null ∨
          wfN (insertL P maxE minE k b cs i).2)
  | [], i, h => by
    simp [insertL, wfL]
  | c :: rest, 0, h => by
    rw [wfL] at h
    have hn := insertN_wf P maxE minE k b c h.1
    simp only [insertL]
    exact ⟨by rw [wfL]; exact ⟨hn.1, h.2⟩, hn.2⟩
  | c :: rest, i + 1, h => by
    rw [wfL] at h
    have hr := insertL_wf P maxE minE k b rest i h.2
    simp only [insertL]
    exact ⟨by rw [wfL]; exact ⟨h.1, hr.1⟩, hr.2⟩

end

/-- Entry membership for the internal-node arm of `InsertInternal` once
the recursive call returned a non-null sibling. -/
theorem insertNodeArm_mem (P : RParams K) (maxE minE : ℕ)
    (cs' : List (RNode K)) (sib : RNode K) (h2 : 2 ≤ (cs' ++ [sib]).length)
    (x : REntry K) :
    (x ∈ entriesN (if maxE ≤ (cs' ++ [sib]).length then
          splitInternalNode P minE (cs' ++ [sib])
        else (.node (nodeCache (cs' ++ [sib])) (cs' ++ [sib]), .null)).1 ∨
      x ∈ entriesN (if maxE ≤ (cs' ++ [sib]).length then
          splitInternalNode P minE (cs' ++ [sib])
        else (.node (nodeCache (cs' ++ [sib])) (cs' ++ [sib]), .null)).2) ↔
      (x ∈ entriesL cs' ∨ x ∈ entriesN sib) := by
  have hrhs : (x ∈ entriesL cs' ∨ x ∈ entriesN sib) ↔ x ∈ entriesL (cs' ++ [sib]) := by
    rw [entriesL_append]
    simp [entriesL]
  rw [hrhs]
  split
  · have key := splitInternalGroups_mem P minE (cs' ++ [sib]) h2
    simp only [splitInternalNode, entriesN]
    rw [mem_entriesL_iff, mem_entriesL_iff, mem_entriesL_iff]
    constructor
    · rintro (⟨c, hc, hx⟩ | ⟨c, hc, hx⟩)
      · exact ⟨c, (key c).1 (Or.inl hc), hx⟩
      · exact ⟨c, (key c).1 (Or.inr hc), hx⟩
    · rintro ⟨c, hc, hx⟩
      rcases (key c).2 hc with h | h
      · exact Or.inl ⟨c, h, hx⟩
      · exact Or.inr ⟨c, h, hx⟩
  · simp [entriesN]

mutual

theorem insertN_mem (P : RParams K) (maxE minE k : ℕ) (b : RTreeBBox K) :
    ∀ n : RNode K, wfN n → ∀ x : REntry K,
      (x ∈ entriesN (insertN P maxE minE k b n).1 ∨
        x ∈ entriesN (insertN P maxE minE k b n).2) ↔
        (x ∈ entriesN n ∨ x = (k, b))
  | .null, h, x => by rw [wfN] at h; exact h.elim
  | .leaf cached es, _, x => by
    simp only [insertN]
    split
    · have h := splitLeafGroups_mem P minE (es ++ [(k, b)]) (by simp) x
      simp only [splitLeafNode, entriesN] at h ⊢
      rw [h]
      simp [entriesN]
    · simp [entriesN]
  | .node cached cs, h, x => by
    rw [wfN] at h
    obtain ⟨hne, hwl⟩ := h
    have hbc := chooseBestChild_lt P cs b hne
    have hm := insertL_mem P maxE minE k b cs (chooseBestChild P cs b) hwl hbc x
    have hlen := insertL_len P maxE minE k b cs (chooseBestChild P cs b)
    rcases hL : insertL P maxE minE k b cs (chooseBestChild P cs b) with ⟨cs', sib⟩
    rw [hL] at hm hlen
    simp only at hm hlen
    have hlp : 0 < cs'.length := by
      rw [hlen]
      exact List.length_pos.2 hne
    simp only [insertN, hL]
    by_cases hnull : sib.isNull = true
    · rw [if_pos hnull]
      have hsn : sib = .null := (isNull_iff sib).1 hnull
      subst hsn
      simp only [entriesN] at hm ⊢
      simpa using hm
    · rw [if_neg hnull]
      have h2 : 2 ≤ (cs' ++ [sib]).length := by
        simp only [List.length_append, List.length_singleton]
        omega
      rw [entriesN]
      exact (insertNodeArm_mem P maxE minE cs' sib h2 x).trans hm

theorem insertL_mem (P : RParams K) (maxE minE k : ℕ) (b : RTreeBBox K) :
    ∀ (cs : List (RNode K)) (i : ℕ), wfL cs → i < cs.length → ∀ x : REntry K,
      (x ∈ entriesL (insertL P maxE minE k b cs i).1 ∨
        x ∈ entriesN (insertL P maxE minE k b cs i).2) ↔
        (x ∈ entriesL cs ∨ x = (k, b))
  | [], i, _, hi, x => absurd hi (by simp)
  | c :: rest, 0, h, _, x => by
    rw [wfL] at h
    have hn := insertN_mem P maxE minE k b c h.1 x
    simp only [insertL, entriesL, List.mem_append]
    tauto
  | c :: rest, i + 1, h, hi, x => by
    rw [wfL] at h
    have hr := insertL_mem P maxE minE k b rest i h.2 (by simpa using hi) x
    simp only [insertL, entriesL, List.mem_append]
    tauto

end

/-- Well-formed index: its root is a non-null well-formed node. -/
def wfT (t : RTree K) : Prop := wfN t.root

theorem mkRTree_wf (maxE minE : ℕ) : wfT (mkRTree maxE minE : RTree K) := by
  rw [wfT, mkRTree, wfN]
  trivial

theorem insertT_wf (P : RParams K) (t : RTree K) (h : wfT t) (k : ℕ)
    (b : RTreeBBox K) : wfT (t.insertT P k b) := by
  have hw := insertN_wf P t.maxEntries t.minEntries k b t.root h
  rcases hI : insertN P t.maxEntries t.minEntries k b t.root with ⟨r, sib⟩
  rw [hI] at hw
  simp only at hw
  rw [wfT]
  simp only [RTree.insertT, hI]
  by_cases hnull : sib.isNull = true
  · rw [if_pos hnull]
    exact hw.1
  · rw [if_neg hnull]
    have hsib : wfN sib := by
      rcases hw.2 with h' | h'
      · exact absurd ((isNull_iff sib).2 h') hnull
      · exact h'
    show wfN (.node (nodeCache [r, sib]) [r, sib])
    rw [wfN]
    exact ⟨by simp, by rw [wfL, wfL]; exact ⟨hw.1, hsib, trivial⟩⟩

theorem insertT_mem (P : RParams K) (t : RTree K) (h : wfT t) (k : ℕ)
    (b : RTreeBBox K) (x : REntry K) :
    x ∈ entriesT (t.insertT P k b) ↔ (x ∈ entriesT t ∨ x = (k, b)) := by
  have hm := insertN_mem P t.maxEntries t.minEntries k b t.root h x
  rcases hI : insertN P t.maxEntries t.minEntries k b t.root with ⟨r, sib⟩
  rw [hI] at hm
  simp only at hm
  rw [entriesT]
  simp only [RTree.insertT, hI]
  by_cases hnull : sib.isNull = true
  · rw [if_pos hnull]
    have hsn : sib = .null := (isNull_iff sib).1 hnull
    subst hsn
    simp only [entriesN] at hm
    simpa using hm
  · rw [if_neg hnull]
    show x ∈ entriesN (.node (nodeCache [r, sib]) [r, sib]) ↔ _
    simp only [entriesN, entriesL, List.mem_append, List.not_mem_nil, or_false] at hm ⊢
    tauto

theorem foldl_insertT (P : RParams K) :
    ∀ (l : List (ℕ × RTreeBBox K)) (t : RTree K), wfT t →
      wfT (l.foldl (fun t kb => t.insertT P kb.1 kb.2) t) ∧
        ∀ x : REntry K,
          x ∈ entriesT (l.foldl (fun t kb => t.insertT P kb.1 kb.2) t) ↔
            (x ∈ entriesT t ∨ x ∈ l)
  | [], t, h => ⟨h, fun x => by simp⟩
  | kb :: l, t, h => by
    have hw := insertT_wf P t h kb.1 kb.2
    have ih := foldl_insertT P l (t.insertT P kb.1 kb.2) hw
    refine ⟨by simpa using ih.1, fun x => ?_⟩
    have hm := insertT_mem P t h kb.1 kb.2 x
    simp only [List.foldl_cons]
    rw [ih.2 x, hm]
    simp only [List.mem_cons]
    constructor
    · rintro ((hx | rfl) | hx)
      · exact Or.inl hx
      · exact Or.inr (Or.inl rfl)
      · exact Or.inr (Or.inr hx)
    · rintro (hx | rfl | hx)
      · exact Or.inl (Or.inl hx)
      · exact Or.inl (Or.inr rfl)
      · exact Or.inr hx

theorem buildT_mem (P : RParams K) (maxE minE : ℕ) (l : List (ℕ × RTreeBBox K))
    (x : REntry K) : x ∈ entriesT (buildT P maxE minE l) ↔ x ∈ l := by
  rw [buildT]
  rw [(foldl_insertT P l (mkRTree maxE minE) (mkRTree_wf maxE minE)).2 x]
  simp [entriesT, mkRTree, entriesN]

theorem searchT_mem (t : RTree K) (q : RTreeBBox K) (k : ℕ) :
    k ∈ t.searchT q ↔ ∃ b : RTreeBBox K, (k, b) ∈ entriesT t ∧ b.intersects q := by
  rw [RTree.searchT, searchN_eq, entriesT]
  constructor
  · intro hk
    obtain ⟨e, he, rfl⟩ := List.mem_map.1 hk
    obtain ⟨hmem, hint⟩ := List.mem_filter.1 he
    exact ⟨e.2, hmem, of_decide_eq_true hint⟩
  · rintro ⟨b, hmem, hint⟩
    exact List.mem_map.2 ⟨(k, b), List.mem_filter.2 ⟨hmem, decide_eq_true hint⟩, rfl⟩

/-- Once some pair strictly beats the running maximum, the seed scan's
result does not depend on the initial seed values. -/
theorem seedFold_engage (f : ℕ × ℕ → K) :
    ∀ (l : List (ℕ × ℕ)) (w : K) (a b : ℕ × ℕ), (∃ p ∈ l, f p > w) →
      l.foldl (fun st ij => if f ij > st.1 then (f ij, ij.1, ij.2) else st) (w, a) =
        l.foldl (fun st ij => if f ij > st.1 then (f ij, ij.1, ij.2) else st) (w, b)
  | [], w, a, b, hex => by simp at hex
  | p :: ps, w, a, b, hex => by
    simp only [List.foldl_cons]
    by_cases hc : f p > w
    · rw [if_pos hc, if_pos hc]
    · rw [if_neg hc, if_neg hc]
      rcases hex with ⟨q, hq, hfq⟩
      rcases List.mem_cons.1 hq with rfl | hq
      · exact absurd hfq hc
      · exact seedFold_engage f ps w a b ⟨q, hq, hfq⟩

theorem getD_map_snd (es : List (REntry K)) (cs : List (RNode K))
    (hb : cs.map getBBox = es.map Prod.snd) (i : ℕ) :
    getBBox (cs.getD i .null) = (es.getD i (0, emptyBox)).2 := by
  induction es generalizing cs i with
  | nil =>
    have : cs = [] := by
      cases cs with
      | nil => rfl
      | cons c cs' => simp at hb
    subst this
    simp [getBBox, emptyBox]
  | cons e es ih =>
    cases cs with
    | nil => simp at hb
    | cons c cs' =>
      simp only [List.map_cons, List.cons.injEq] at hb
      cases i with
      | zero => simpa using hb.1
      | succ j => simpa using ih cs' (by simpa using hb.2) j

/-- The two seed-choosing routines coincide whenever the child boxes equal
the entry boxes and at least one pair's waste beats the initial `−1`
(otherwise the leaf routine leaves its seeds uninitialized — undefined
behaviour — while the internal routine keeps `(0, 1)`). -/
theorem chooseSeeds_agree (P : RParams K) (es : List (REntry K))
    (cs : List (RNode K)) (hb : cs.map getBBox = es.map Prod.snd)
    (hex : ∃ p ∈ pairList es.length,
      boxWaste P (es.getD p.1 (0, emptyBox)).2 (es.getD p.2 (0, emptyBox)).2 > (-1 : K)) :
    chooseSeeds P es = chooseSeedsForNodes P cs := by
  have hlen : cs.length = es.length := by
    have := congrArg List.length hb
    simpa using this
  have hfun : (fun (st : K × ℕ × ℕ) (ij : ℕ × ℕ) =>
        if boxWaste P (getBBox (cs.getD ij.1 .null)) (getBBox (cs.getD ij.2 .null)) > st.1 then
          (boxWaste P (getBBox (cs.getD ij.1 .null)) (getBBox (cs.getD ij.2 .null)), ij.1, ij.2)
        else st) =
      (fun (st : K × ℕ × ℕ) (ij : ℕ × ℕ) =>
        if boxWaste P (es.getD ij.1 (0, emptyBox)).2 (es.getD ij.2 (0, emptyBox)).2 > st.1 then
          (boxWaste P (es.getD ij.1 (0, emptyBox)).2 (es.getD ij.2 (0, emptyBox)).2, ij.1, ij.2)
        else st) := by
    funext st ij
    rw [getD_map_snd es cs hb ij.1, getD_map_snd es cs hb ij.2]
  rw [chooseSeeds, chooseSeedsForNodes, hlen, hfun,
    seedFold_engage _ (pairList es.length) (-1 : K) (0, 1) (0, 0) hex]

theorem count_map_fst_filter (k : ℕ) (q : RTreeBBox K) :
    ∀ es : List (REntry K),
      ((es.filter fun e => decide (e.2.intersects q)).map Prod.fst).count k =
        (es.filter fun e => decide (e.1 = k ∧ e.2.intersects q)).length
  | [] => rfl
  | e :: es => by
    have ih := count_map_fst_filter k q es
    by_cases h1 : e.2.intersects q <;> by_cases h2 : e.1 = k <;>
      simp [List.filter_cons, h1, h2, List.count_cons, ih]

/-- Search produces exactly one output element per stored entry whose box
intersects the query and whose key is `k` — no deduplication. -/
theorem searchN_count (q : RTreeBBox K) (n : RNode K) (k : ℕ) :
    (searchN q n).count k =
      ((entriesN n).filter fun e => decide (e.1 = k ∧ e.2.intersects q)).length := by
  rw [searchN_eq]
  exact count_map_fst_filter k q (entriesN n)

/-- The leaf arm of `InsertInternal` returns a (non-null) sibling exactly
when the leaf, after the append, holds at least `maxEntries` entries
(`IsFull` tests `size() >= maxEntries`, so a leaf holding exactly
`maxEntries` *is* split). -/
theorem insertN_leaf_split_iff (P : RParams K) (maxE minE k : ℕ)
    (b : RTreeBBox K) (cached : RTreeBBox K) (es : List (REntry K)) :
    (insertN P maxE minE k b (.leaf cached es)).2 ≠ .null ↔
      maxE ≤ es.length + 1 := by
  simp only [insertN, List.length_append, List.length_singleton]
  by_cases h : maxE ≤ es.length + 1
  · rw [if_pos h]
    simp only [splitLeafNode]
    exact ⟨fun _ => h, fun _ => by simp⟩
  · rw [if_neg h]
    simp [h]

/-- The internal arm of `InsertInternal` returns a sibling exactly when
the recursion into the chosen child returned one *and* the node, after
`AddChild`, holds at least `maxEntries` children. -/
theorem insertN_node_split_iff (P : RParams K) (maxE minE k : ℕ)
    (b : RTreeBBox K) (cached : RTreeBBox K) (cs : List (RNode K)) :
    (insertN P maxE minE k b (.node cached cs)).2 ≠ .null ↔
      ((insertL P maxE minE k b cs (chooseBestChild P cs b)).2 ≠ .null ∧
        maxE ≤ cs.length + 1) := by
  have hlen := insertL_len P maxE minE k b cs (chooseBestChild P cs b)
  rcases hL : insertL P maxE minE k b cs (chooseBestChild P cs b) with ⟨cs', sib⟩
  rw [hL] at hlen
  simp only at hlen
  simp only [insertN, hL]
  by_cases hnull : sib.isNull = true
  · rw [if_pos hnull]
    have hsn : sib = .null := (isNull_iff sib).1 hnull
    subst hsn
    simp
  · rw [if_neg hnull]
    have hlt : (cs' ++ [sib]).length = cs.length + 1 := by simp [hlen]
    rw [hlt]
    have hsn : sib ≠ .null := fun hc => hnull ((isNull_iff sib).2 hc)
    by_cases h : maxE ≤ cs.length + 1
    · rw [if_pos h]
      simp only [splitInternalNode]
      constructor
      · intro
        exact ⟨hsn, h⟩
      · intro
        simp
    · rw [if_neg h]
      simp [h]

/-- The function `InsertInternal` never turns a non-null node into a null one. -/
theorem insertN_fst_ne_null (P : RParams K) (maxE minE k : ℕ) (b : RTreeBBox K) :
    ∀ n : RNode K, n ≠ .null → (insertN P maxE minE k b n).1 ≠ .null
  | .null, h => absurd rfl h
  | .leaf cached es, _ => by
    simp only [insertN]
    split
    · simp [splitLeafNode]
    · simp
  | .node cached cs, _ => by
    simp only [insertN]
    split
    · simp
    · split
      · simp [splitInternalNode]
      · simp

/-- Public `Insert` keeps the root non-null. -/
theorem insertT_root_ne_null (P : RParams K) (t : RTree K) (k : ℕ)
    (b : RTreeBBox K) (h : t.root ≠ .null) : (t.insertT P k b).root ≠ .null := by
  simp only [RTree.insertT]
  split
  · exact insertN_fst_ne_null P t.maxEntries t.minEntries k b t.root h
  · simp

/-- The real-number parameter instance: genuine sine, `π` and square root
(`sinDeg x = sin(x·π/180)` matches the radian conversion in `Area`). -/
noncomputable def pReal : RParams ℝ :=
  ⟨fun x => Real.sin (x * Real.pi / 180), Real.pi, Real.sqrt⟩

/-- Modelled from the spec: "Euclidean distance (in raw lat/lon degree
units) from the point to the nearest point of the box". -/
noncomputable def euclidDist (x1 y1 x2 y2 : ℝ) : ℝ :=
  Real.sqrt ((x1 - x2) ^ 2 + (y1 - y2) ^ 2)

/-- The clamped coordinate `max lo (min x hi)` is at least as close to `x`
as any point of `[lo, hi]`. -/
theorem clamp_abs_le (lo hi x p : ℝ) (hlo : lo ≤ p) (hp : p ≤ hi) :
    |x - max lo (min x hi)| ≤ |x - p| := by
  have hlh : lo ≤ hi := le_trans hlo hp
  rcases le_total x lo with h | h
  · rw [min_eq_left (le_trans h hlh), max_eq_left h]
    rw [abs_sub_comm x lo, abs_sub_comm x p]
    rw [abs_of_nonneg (sub_nonneg.2 h), abs_of_nonneg (sub_nonneg.2 (le_trans h hlo))]
    linarith
  · rcases le_total hi x with h2 | h2
    · rw [min_eq_right h2, max_eq_right hlh]
      rw [abs_of_nonneg (sub_nonneg.2 h2), abs_of_nonneg (sub_nonneg.2 (le_trans hp h2))]
      linarith
    · rw [min_eq_left h2, max_eq_right h]
      simp [abs_nonneg]

theorem clamp_sq_le (lo hi x p : ℝ) (hlo : lo ≤ p) (hp : p ≤ hi) :
    (x - max lo (min x hi)) ^ 2 ≤ (x - p) ^ 2 := by
  have h := clamp_abs_le lo hi x p hlo hp
  calc (x - max lo (min x hi)) ^ 2 = |x - max lo (min x hi)| ^ 2 := (sq_abs _).symm
    _ ≤ |x - p| ^ 2 := by
        exact pow_le_pow_left (abs_nonneg _) h 2
    _ = (x - p) ^ 2 := sq_abs _

theorem DMAX_pos : (0 : K) < DMAX K := by
  rw [DMAX]
  have h : (0 : ℕ) < 2 ^ 1024 - 2 ^ 971 := by
    have h2 : (2 : ℕ) ^ 971 < 2 ^ 1024 := Nat.pow_lt_pow_right one_lt_two (by norm_num)
    omega
  exact_mod_cast h

theorem unitBox_valid : (⟨0, 0, 1, 1⟩ : RTreeBBox ℝ).isValid := by
  rw [RTreeBBox.isValid]
  exact ⟨zero_le_one, zero_le_one, ne_of_lt DMAX_pos⟩

/-- C1: for every insertion sequence with pairwise-distinct keys (no
deletes or updates) and every query rectangle, `Search` returns a key iff
that key was inserted with a rectangle intersecting the query (touching
counts, per `Intersects`). -/
theorem claim1_search_roundtrip (K : Type) [LinearOrderedField K]
    (P : RParams K) (maxE minE : ℕ) (inserts : List (ℕ × RTreeBBox K))
    (q : RTreeBBox K) (k : ℕ)
    (hdist : (inserts.map Prod.fst).Pairwise (· ≠ ·)) :
    k ∈ (buildT P maxE minE inserts).searchT q ↔
      ∃ b : RTreeBBox K, (k, b) ∈ inserts ∧ b.intersects q := by
  rw [searchT_mem]
  constructor
  · rintro ⟨b, hb, hi⟩
    exact ⟨b, (buildT_mem P maxE minE inserts (k, b)).1 hb, hi⟩
  · rintro ⟨b, hb, hi⟩
    exact ⟨b, (buildT_mem P maxE minE inserts (k, b)).2 hb, hi⟩

/-- Witness for C1 at the spec's concrete scenario 1. -/
theorem claim1_search_roundtrip_witness :
    (([(1, bx 10 10 20 20), (2, bx 30 30 40 40), (3, bx 50 50 60 60),
        (4, bx 15 15 25 25)].map Prod.fst).Pairwise (· ≠ ·)) ∧
      (1 ∈ (buildT pFlat 4 2 [(1, bx 10 10 20 20), (2, bx 30 30 40 40),
          (3, bx 50 50 60 60), (4, bx 15 15 25 25)]).searchT (bx 12 12 22 22) ↔
        ∃ b : RTreeBBox ℚ, (1, b) ∈ [(1, bx 10 10 20 20), (2, bx 30 30 40 40),
          (3, bx 50 50 60 60), (4, bx 15 15 25 25)] ∧ b.intersects (bx 12 12 22 22)) :=
  ⟨by decide, claim1_search_roundtrip ℚ pFlat 4 2 _ _ 1 (by decide)⟩

/-- C2: refuted on the code.  After the fifth insert below lands in a child
leaf without splitting it, `InsertInternal` does not refresh the root's
cached rect: the root caches `(0,0)-(0,3)` while the union of its
children's cached rects is `(0,0)-(0,100)`, and the root's cached rect does
not even contain the just-inserted entry `(5, (0,100))`. -/
theorem claim2_cached_rect_stale :
    rootCached t5flat = bx 0 0 0 3 ∧ rootChildrenUnion t5flat = bx 0 0 0 100 ∧
      rootCached t5flat ≠ rootChildrenUnion t5flat ∧
      (5, pt 100) ∈ entriesT t5flat ∧
      ¬(rootCached t5flat).containsPt 0 100 := by decide

/-- C3: refuted on the code.  On a tree whose root is internal, a `Delete`
of an absent key returns `false` but `std::move`s every child out of the
root and discards them: all four stored entries vanish and a subsequent
whole-world `Search` returns nothing. -/
theorem claim3_failed_delete_guts_tree :
    (t4flat.deleteT 99).2 = false ∧
      entriesT t4flat = [(1, pt 0), (4, pt 3), (2, pt 1), (3, pt 2)] ∧
      entriesT (t4flat.deleteT 99).1 = [] ∧
      t4flat.searchT (bx (-1000000) (-1000000) 1000000 1000000) = [1, 4, 2, 3] ∧
      ((t4flat.deleteT 99).1).searchT (bx (-1000000) (-1000000) 1000000 1000000) = [] := by
  decide

/-- C4: refuted on the code.  In the four-entry tree `tNear`,
branch-and-bound `FindNearest(0, 50000)` returns key `4`, while the
brute-force minimum of `DistanceToBox` over all stored boxes is attained
at key `3` (whose distance is strictly smaller): the tie-breaker term makes
a child's box distance exceed the distance of an entry inside it, so the
prune discards the true minimum. -/
theorem claim4_findNearest_not_bruteforce :
    tNear.findNearestT pNear 0 50000 = 4 ∧
      bruteNearest pNear (entriesT tNear) 0 50000 = 3 ∧
      distToBox pNear 0 50000 (pt 45000) < distToBox pNear 0 50000 (pt 44999) := by
  decide

/-- C5 counterexample: on the same box sequence the leaf split yields
groups `{b0, b2, b3} / {b1}` while the internal split yields
`{b0, b2} / {b1, b3}` — the internal split processes remaining children in
minimum-|Δenlargement| order, not original order. -/
theorem claim5_counterexample :
    ((splitInternalGroups pBand 2 (c5boxes.map fun b => RNode.leaf b [])).1.map getBBox,
      (splitInternalGroups pBand 2 (c5boxes.map fun b => RNode.leaf b [])).2.map getBBox) ≠
    ((splitLeafGroups pBand 2 es5).1.map Prod.snd,
      (splitLeafGroups pBand 2 es5).2.map Prod.snd) := by decide

/-- C5 (amended): the seed-selection step *is* identical in the two split
routines — whenever the children's boxes equal the entries' boxes and some
pair's waste beats the initial `−1` (engaging the scan), `ChooseSeeds` and
`ChooseSeedsForNodes` return the same pair.  (The subsequent assignment
loops differ, as the counterexample shows.) -/
theorem claim5_seeds_agree (K : Type) [LinearOrderedField K] (P : RParams K)
    (es : List (REntry K)) (cs : List (RNode K))
    (hb : cs.map getBBox = es.map Prod.snd)
    (hex : ∃ p ∈ pairList es.length,
      boxWaste P (es.getD p.1 (0, emptyBox)).2 (es.getD p.2 (0, emptyBox)).2 > (-1 : K)) :
    chooseSeeds P es = chooseSeedsForNodes P cs :=
  chooseSeeds_agree P es cs hb hex

/-- Witness for the amended C5 at the concrete `c5boxes` instance. -/
theorem claim5_seeds_agree_witness :
    ((c5boxes.map fun b => RNode.leaf b [] : List (RNode ℚ)).map getBBox =
        es5.map Prod.snd ∧
      (∃ p ∈ pairList es5.length,
        boxWaste pBand (es5.getD p.1 (0, emptyBox)).2 (es5.getD p.2 (0, emptyBox)).2 >
          (-1 : ℚ))) ∧
      chooseSeeds pBand es5 =
        chooseSeedsForNodes pBand (c5boxes.map fun b => RNode.leaf b []) :=
  ⟨⟨by decide, by decide⟩,
    claim5_seeds_agree ℚ pBand es5 (c5boxes.map fun b => RNode.leaf b [])
      (by decide) (by decide)⟩

/-- C6: refuted on the code (code bug).  With `maxEntries = 4`,
`minEntries = 2`, inserting the four `tBand` boxes makes the leaf split
produce groups of sizes `1` and `3`: the forced-assignment test
`group.size() + remaining < minEntries` fires one step too late, so a
non-root leaf ends up holding fewer than `minEntries` entries right after
an insert-only split, contradicting the code's own comment "Make sure each
group gets its minimum required entries". -/
theorem claim6_split_undershoots_minEntries :
    childEntryCounts tBand = [1, 3] ∧ tBand.minEntries = 2 := by decide

/-- C7 counterexample: inserting exactly `maxEntries = 4` entries into a
fresh `RTree(4, 2)` already splits the root leaf (the root becomes
internal with two 2-entry leaves), though the claim says a node holding
exactly `maxEntries` items is not split. -/
theorem claim7_counterexample :
    (mkRTree 4 2 : RTree ℚ).maxEntries = 4 ∧ t4flat.root.isLeafB = false ∧
      childEntryCounts t4flat = [2, 2] := by decide

/-- C7 (amended): a node is split exactly when, after the append
(`AddEntry`/`AddChild`), it holds **at least** `maxEntries` items —
`IsFull` tests `size() >= maxEntries`, so a node reaching exactly
`maxEntries` is split. -/
theorem claim7_split_at_maxEntries (K : Type) [LinearOrderedField K]
    (P : RParams K) (maxE minE k : ℕ) (b cached : RTreeBBox K)
    (es : List (REntry K)) (cs : List (RNode K)) :
    ((insertN P maxE minE k b (.leaf cached es)).2 ≠ .null ↔
      maxE ≤ es.length + 1) ∧
    ((insertN P maxE minE k b (.node cached cs)).2 ≠ .null ↔
      ((insertL P maxE minE k b cs (chooseBestChild P cs b)).2 ≠ .null ∧
        maxE ≤ cs.length + 1)) :=
  ⟨insertN_leaf_split_iff P maxE minE k b cached es,
    insertN_node_split_iff P maxE minE k b cached cs⟩

/-- C8: `DistanceToBox` returns exactly `0` when the box contains the
point (inclusive bounds); otherwise it returns the Euclidean distance from
the point to the nearest point of the box (the clamped point, proved
nearest) minus the tie-breaker `0.0001 · (centerLat + centerLon)`. -/
theorem claim8_distToBox (lat lon : ℝ) (b : RTreeBBox ℝ) (hv : b.isValid) :
    (b.containsPt lat lon → distToBox pReal lat lon b = 0) ∧
    (¬b.containsPt lat lon →
      b.containsPt (max b.minLat (min lat b.maxLat)) (max b.minLon (min lon b.maxLon)) ∧
      (∀ p q : ℝ, b.containsPt p q →
        euclidDist lat lon (max b.minLat (min lat b.maxLat))
            (max b.minLon (min lon b.maxLon)) ≤ euclidDist lat lon p q) ∧
      distToBox pReal lat lon b =
        euclidDist lat lon (max b.minLat (min lat b.maxLat))
            (max b.minLon (min lon b.maxLon)) -
          1 / 10000 * ((b.minLat + b.maxLat) / 2 + (b.minLon + b.maxLon) / 2)) := by
  rw [RTreeBBox.isValid] at hv
  obtain ⟨h1, h2, _⟩ := hv
  constructor
  · intro hc
    simp [distToBox, hc]
  · intro hc
    refine ⟨?_, ?_, ?_⟩
    · rw [RTreeBBox.containsPt]
      exact ⟨le_max_left _ _, max_le h1 (min_le_right _ _),
        le_max_left _ _, max_le h2 (min_le_right _ _)⟩
    · intro p q hpq
      rw [RTreeBBox.containsPt] at hpq
      obtain ⟨hp1, hp2, hq1, hq2⟩ := hpq
      rw [euclidDist, euclidDist]
      exact Real.sqrt_le_sqrt
        (add_le_add (clamp_sq_le _ _ _ _ hp1 hp2) (clamp_sq_le _ _ _ _ hq1 hq2))
    · simp only [distToBox, if_neg hc, euclidDist, pReal]
      congr 1
      congr 1
      ring

/-- Witness for C8 at the unit box and the outside point `(2, 0)`. -/
theorem claim8_distToBox_witness :
    (⟨0, 0, 1, 1⟩ : RTreeBBox ℝ).isValid ∧
    (((⟨0, 0, 1, 1⟩ : RTreeBBox ℝ).containsPt 2 0 →
        distToBox pReal 2 0 ⟨0, 0, 1, 1⟩ = 0) ∧
      (¬(⟨0, 0, 1, 1⟩ : RTreeBBox ℝ).containsPt 2 0 →
        (⟨0, 0, 1, 1⟩ : RTreeBBox ℝ).containsPt
            (max 0 (min 2 1)) (max 0 (min 0 1)) ∧
        (∀ p q : ℝ, (⟨0, 0, 1, 1⟩ : RTreeBBox ℝ).containsPt p q →
          euclidDist 2 0 (max 0 (min 2 1)) (max 0 (min 0 1)) ≤ euclidDist 2 0 p q) ∧
        distToBox pReal 2 0 ⟨0, 0, 1, 1⟩ =
          euclidDist 2 0 (max 0 (min 2 1)) (max 0 (min 0 1)) -
            1 / 10000 * ((0 + 1) / 2 + (0 + 1) / 2))) :=
  ⟨unitBox_valid, claim8_distToBox 2 0 ⟨0, 0, 1, 1⟩ unitBox_valid⟩

/-- C9 counterexample: insert one entry into a fresh `RTree(4, 2)` and
delete it again — the root becomes a null pointer, not an empty leaf. -/
theorem claim9_counterexample :
    (((mkRTree 4 2 : RTree ℚ).insertT pFlat 1 (pt 0)).deleteT 1).1.root.isNull
      = true := by decide

/-- C9 (amended): the root is a non-null empty leaf after construction and
stays non-null under `Insert`; but deleting the last entry leaves a null
root (which `Search`/`FindNearest` special-case), as the counterexample
shows. -/
theorem claim9_root_nonnull (K : Type) [LinearOrderedField K] (P : RParams K)
    (maxE minE : ℕ) :
    (mkRTree maxE minE : RTree K).root = .leaf emptyBox [] ∧
      ∀ t : RTree K, t.root ≠ .null → ∀ (k : ℕ) (b : RTreeBBox K),
        (t.insertT P k b).root ≠ .null :=
  ⟨rfl, fun t ht k b => insertT_root_ne_null P t k b ht⟩

/-- Witness for the amended C9. -/
theorem claim9_root_nonnull_witness :
    ((mkRTree 4 2 : RTree ℚ).root ≠ .null) ∧
      ((mkRTree 4 2 : RTree ℚ).insertT pFlat 1 (pt 0)).root ≠ .null :=
  ⟨by simp [mkRTree],
    (claim9_root_nonnull ℚ pFlat 4 2).2 (mkRTree 4 2) (by simp [mkRTree]) 1 (pt 0)⟩

/-- C10 counterexample: both copies of key `7` intersect the query, and
`Search` indeed reports the key twice; but a *single* successful
`Delete(7)` removes *all* stored copies (the leaf filter drops every
matching entry in the leaf), so the key vanishes entirely — refuting the
claim's "does not remove all of its stored copies". -/
theorem claim10_counterexample :
    tdup.searchT (bx 0 0 0 1) = [7, 7] ∧ (tdup.deleteT 7).2 = true ∧
      ((tdup.deleteT 7).1).searchT (bx 0 0 0 1) = [] := by decide

/-- C10 (amended): `Search` returns exactly one result element per stored
leaf entry whose box intersects the query (no deduplication; a key
inserted twice with intersecting boxes appears twice); a single successful
`Delete` removes *every* copy stored in the first leaf where the key is
found, but leaves copies in other leaves intact. -/
theorem claim10_search_multiplicity :
    (∀ (K : Type) [LinearOrderedField K] (t : RTree K) (q : RTreeBBox K) (k : ℕ),
      (t.searchT q).count k =
        ((entriesT t).filter fun e => decide (e.1 = k ∧ e.2.intersects q)).length) ∧
    (tdup.searchT (bx 0 0 0 1)).count 7 = 2 ∧
    (tdup2.deleteT 7).2 = true ∧
    (((tdup2.deleteT 7).1).searchT (bx 0 0 0 3)).count 7 = 1 := by
  refine ⟨?_, by decide, by decide, by decide⟩
  intro K _ t q k
  exact searchN_count q t.root k
